import Mathlib

/-! thread.c : one writer, one observer, one shared `int`

An interleaving model of `src/thread.c`.  The program has a global `int a = 0`,
a function `ThreadFunc` that prints `a` a thousand times, and `main`, which
asks the operating system for a thread running `ThreadFunc` and, when it gets
one, increments `a` a thousand times.

The two threads are modelled as two small-step functions on a common state; a
schedule (a list of actors) decides whose statement runs next.

* Each access to `a` is one step: `a++` (together with the loop test and `i++`
  around it) and `printf("%d", a)` (likewise).  `CreateThread`, the test
  `if (thread)`, and each loop exit with the return after it are steps too.
* The handle returned by `CreateThread` is a parameter `h` of the run; `0`
  stands for `NULL`.  A thread running `ThreadFunc` exists from the
  `CreateThread` step on exactly when `h` is not `NULL`.
* `a` is a 32-bit `int`: `a++` stores `wrapInt (a + 1)`.  The loop counters
  `i` are natural numbers; they never exceed the loop bound.
* Of `printf("%d", a)` the model keeps the value printed; `out` lists these
  values in the order of the calls.
* The loop bound 1000 is the parameter `N` of the step functions; thread.c is
  the instance `N = LOOP_COUNT`.
* Returning from `main` ends a process together with its threads.  The model
  does not stop the observer at that point, so it has every behaviour of the
  program and possibly more: what is proved of all schedules holds of the
  program, and the schedules exhibited below never step the observer after
  `main` has returned.
-/

namespace ThreadC

/-! ## The program -/

/-- The bound `1000` of both `for` loops of thread.c. -/
def LOOP_COUNT : Nat := 1000

/-- Largest value of a 32-bit C `int`. -/
def INT_MAX : Int := 2147483647

/-- The `int` that results from storing the mathematical value `x`:
two's-complement wrap-around to 32 bits. -/
def wrapInt (x : Int) : Int := (x + 2147483648) % 4294967296 - 2147483648

/-- Control point of `main`.
* `entry`: before `CreateThread`;
* `test h`: `thread` holds the handle `h`, before `if (thread)`;
* `loop i`: inside the `if`, before the test `i < 1000` of the `for`;
* `returned c`: past the closing brace, with exit value `c`. -/
inductive MainPc where
  | entry : MainPc
  | test (thread : Nat) : MainPc
  | loop (i : Nat) : MainPc
  | returned (code : Int) : MainPc
  deriving DecidableEq

/-- Control point of the thread running `ThreadFunc`.
* `absent`: no thread has been created;
* `loop i`: before the test `i < 1000` of the `for`;
* `returned c`: `ThreadFunc` has executed `return c`. -/
inductive ThreadPc where
  | absent : ThreadPc
  | loop (i : Nat) : ThreadPc
  | returned (code : Nat) : ThreadPc
  deriving DecidableEq

/-- Program state: the global `a`, the two control points, and the values
handed to `printf("%d", a)` so far, oldest first. -/
structure State where
  a : Int
  mainPc : MainPc
  thread : ThreadPc
  out : List Int
  deriving DecidableEq

/-- State at program start: `int a = 0;`, `main` not yet entered. -/
def init : State := { a := 0, mainPc := .entry, thread := .absent, out := [] }

/-- One step of `ThreadFunc` with loop bound `N`:
`for (size_t i = 0; i < N; i++) { printf("%d", a); } return 0;`.
`none` when no thread is running. -/
def ThreadFunc (N : Nat) (s : State) : Option State :=
  match s.thread with
  | .loop i =>
    if i < N then some { s with out := s.out ++ [s.a], thread := .loop (i + 1) }
    else some { s with thread := .returned 0 }
  | _ => none

/-- One step of `main` with loop bound `N`, where `h` is the handle that
`CreateThread` returns (`0` is `NULL`; a thread running `ThreadFunc` exists
exactly when `h` is not `NULL`):
`HANDLE thread = CreateThread(..); if (thread) { for (size_t i = 0; i < N; i++) { a++; } }`.
Control that reaches the closing brace of `main` returns `0`.
`none` when `main` has returned. -/
def main (N : Nat) (h : Nat) (s : State) : Option State :=
  match s.mainPc with
  | .entry =>
    some { s with mainPc := .test h, thread := if h ≠ 0 then .loop 0 else s.thread }
  | .test t =>
    if t ≠ 0 then some { s with mainPc := .loop 0 }
    else some { s with mainPc := .returned 0 }
  | .loop i =>
    if i < N then some { s with a := wrapInt (s.a + 1), mainPc := .loop (i + 1) }
    else some { s with mainPc := .returned 0 }
  | .returned _ => none

/-- Who takes the next step. -/
inductive Actor where
  | main : Actor
  | thread : Actor
  deriving DecidableEq

/-- One step of the program: the scheduled actor executes its next statement. -/
def step (N : Nat) (h : Nat) (who : Actor) (s : State) : Option State :=
  match who with
  | .main => main N h s
  | .thread => ThreadFunc N s

/-- Execute a schedule from `s`; `none` when some scheduled actor cannot step. -/
def run (N : Nat) (h : Nat) : List Actor → State → Option State
  | [], s => some s
  | who :: rest, s => (step N h who s).bind (run N h rest)

/-- States of the program with loop bound `N` and `CreateThread` result `h`. -/
def Reachable (N : Nat) (h : Nat) (s : State) : Prop :=
  ∃ sched : List Actor, run N h sched init = some s

/-- The exit value of `main`, once it has returned. -/
def exitCode (s : State) : Option Int :=
  match s.mainPc with
  | .returned c => some c
  | _ => none

/-- `main` is past its `for` loop: the loop test is about to fail, or `main`
has returned. -/
def mainLoopEnded (N : Nat) (s : State) : Bool :=
  match s.mainPc with
  | .loop i => decide (N ≤ i)
  | .returned _ => true
  | _ => false

/-- `main` is about to execute `a++`. -/
def atIncrement (N : Nat) (s : State) : Bool :=
  match s.mainPc with
  | .loop i => decide (i < N)
  | _ => false

/-- The state in which `main` is entered once more after it has returned:
every variable keeps the value the earlier run left behind, control of `main`
is back at its first statement.  A thread that the new run creates takes the
place of the earlier one in the field `thread`; no thread ever writes `a`. -/
def reenter (s : State) : State := { s with mainPc := .entry }

/-- Relation between `main`'s control point and the counter, for a run of
`main` entered with `a = a0`. -/
def MainInv (N h : Nat) (a0 : Int) (s : State) : Prop :=
  match s.mainPc with
  | .entry => s.a = a0
  | .test t => t = h ∧ s.a = a0
  | .loop i => h ≠ 0 ∧ i ≤ N ∧ s.a = a0 + i
  | .returned c => c = 0 ∧ ((h = 0 ∧ s.a = a0) ∨ (h ≠ 0 ∧ s.a = a0 + N))

/-- Relation between the observer's control point, its output and the
counter, for a run from `init`. -/
def ObsInv (N h : Nat) (s : State) : Prop :=
  (s.mainPc = .entry → s.thread = .absent) ∧
  (match s.thread with
    | .absent => s.out = [] ∧ (s.mainPc = .entry ∨ h = 0)
    | .loop j => j ≤ N ∧ s.out.length = j ∧ h ≠ 0
    | .returned c => c = 0 ∧ s.out.length = N ∧ h ≠ 0) ∧
  s.out.Pairwise (fun x y => x ≤ y) ∧ (∀ v ∈ s.out, 0 ≤ v ∧ v ≤ s.a)

/-- Both invariants together, for a run from `init`. -/
def Inv (N h : Nat) (s : State) : Prop := MainInv N h 0 s ∧ ObsInv N h s

/-- A schedule in four phases: `main` calls `CreateThread`; the observer reads
`k1` times; `main` tests the handle and increments `N` times; the observer
reads `k2` more times.  At its end `main` is still in front of the failing
loop test, so both threads are alive throughout. -/
def phases (N k1 k2 : Nat) : List Actor :=
  Actor.main :: (List.replicate k1 Actor.thread ++
    (List.replicate (N + 1) Actor.main ++ List.replicate k2 Actor.thread))

/-- Upper bound on the number of steps `main` still takes before it has
returned, by control point (`h` is the handle `CreateThread` returns). -/
def mainFuel (N h : Nat) : MainPc → Nat
  | .entry => if h = 0 then 2 else N + 3
  | .test t => if t = 0 then 1 else N + 2
  | .loop i => N - i + 1
  | .returned _ => 0

/-- Number of steps the observer has taken: one per read, one for the return. -/
def threadSteps (N : Nat) : ThreadPc → Nat
  | .absent => 0
  | .loop j => j
  | .returned _ => N + 1

/-! ## Basic lemmas -/

theorem run_invariant (N h : Nat) (P : State → Prop)
    (hstep : ∀ who s s', P s → step N h who s = some s' → P s') :
    ∀ (sched : List Actor) (s s' : State), P s → run N h sched s = some s' → P s' := by
  intro sched
  induction sched with
  | nil =>
    intro s s' hP hr
    simp only [run, Option.some.injEq] at hr
    exact hr ▸ hP
  | cons who rest ih =>
    intro s s' hP hr
    simp only [run] at hr
    cases hs : step N h who s with
    | none => simp [hs] at hr
    | some s1 =>
      rw [hs] at hr
      exact ih s1 s' (hstep who s s1 hP hs) hr

theorem run_append (N h : Nat) (xs ys : List Actor) (s : State) :
    run N h (xs ++ ys) s = (run N h xs s).bind (run N h ys) := by
  induction xs generalizing s with
  | nil => simp [run]
  | cons x xs ih =>
    simp only [List.cons_append, run]
    cases step N h x s with
    | none => simp
    | some s1 => simpa using ih s1

theorem wrapInt_id (x : Int) (h1 : -2147483648 ≤ x) (h2 : x ≤ INT_MAX) : wrapInt x = x := by
  unfold wrapInt INT_MAX at *
  omega

theorem mainInv_step (N h : Nat) (a0 : Int) (hlo : -2147483648 ≤ a0)
    (hhi : a0 + N ≤ INT_MAX) (who : Actor) (s s' : State)
    (hinv : MainInv N h a0 s) (hs : step N h who s = some s') : MainInv N h a0 s' := by
  obtain ⟨a, pc, th, out⟩ := s
  cases who with
  | thread =>
    cases th with
    | absent => simp [step, ThreadFunc] at hs
    | returned c => simp [step, ThreadFunc] at hs
    | loop j =>
      simp only [step, ThreadFunc] at hs
      split at hs <;> (simp only [Option.some.injEq] at hs; subst hs; exact hinv)
  | main =>
    cases pc with
    | entry =>
      simp only [step, main, Option.some.injEq] at hs
      subst hs
      exact ⟨rfl, hinv⟩
    | test t =>
      simp only [step, main] at hs
      simp only [MainInv] at hinv
      split at hs <;> (simp only [Option.some.injEq] at hs; subst hs; simp only [MainInv])
      · refine ⟨?_, Nat.zero_le _, by simpa using hinv.2⟩
        rw [← hinv.1]; assumption
      · refine ⟨trivial, Or.inl ⟨?_, hinv.2⟩⟩
        rw [← hinv.1]; omega
    | loop i =>
      simp only [step, main] at hs
      simp only [MainInv] at hinv
      obtain ⟨h0, hi, ha⟩ := hinv
      split at hs <;> (simp only [Option.some.injEq] at hs; subst hs; simp only [MainInv])
      · refine ⟨h0, by omega, ?_⟩
        rw [wrapInt_id _ (by omega) (by omega)]
        push_cast; omega
      · refine ⟨trivial, Or.inr ⟨h0, ?_⟩⟩
        have : i = N := by omega
        subst this; exact ha
    | returned c => simp [step, main] at hs

theorem mainInv_bounds (N h : Nat) (s : State) (hinv : MainInv N h 0 s) :
    0 ≤ s.a ∧ s.a ≤ N := by
  obtain ⟨a, pc, th, out⟩ := s
  cases pc with
  | entry => simp only [MainInv] at hinv; dsimp only; omega
  | test t => simp only [MainInv] at hinv; dsimp only; omega
  | loop i => simp only [MainInv] at hinv; dsimp only; omega
  | returned c => simp only [MainInv] at hinv; dsimp only; omega

theorem obsInv_step (N h : Nat) (hN : (N : Int) ≤ INT_MAX) (who : Actor) (s s' : State)
    (hm : MainInv N h 0 s) (hinv : ObsInv N h s) (hs : step N h who s = some s') :
    ObsInv N h s' := by
  have hb := mainInv_bounds N h s hm
  obtain ⟨a, pc, th, out⟩ := s
  obtain ⟨he, ht, hp, hv⟩ := hinv
  simp only at he ht hp hv hb
  cases who with
  | thread =>
    cases th with
    | absent => simp [step, ThreadFunc] at hs
    | returned c => simp [step, ThreadFunc] at hs
    | loop j =>
      simp only [step, ThreadFunc] at hs
      simp only at ht
      obtain ⟨hj, hl, h0⟩ := ht
      split at hs <;> (simp only [Option.some.injEq] at hs; subst hs)
      · refine ⟨?_, ?_, ?_, ?_⟩
        · intro hpc; exact absurd (he hpc) (by simp)
        · exact ⟨by omega, by simp [hl], h0⟩
        · simp only [List.pairwise_append, List.pairwise_cons, List.mem_singleton]
          refine ⟨hp, ⟨by simp, List.Pairwise.nil⟩, ?_⟩
          intro x hx y hy
          subst hy
          exact (hv x hx).2
        · intro v hvm
          simp only [List.mem_append, List.mem_singleton] at hvm
          rcases hvm with hvm | hvm
          · exact hv v hvm
          · subst hvm; exact ⟨hb.1, le_refl _⟩
      · refine ⟨?_, ?_, hp, hv⟩
        · intro hpc; exact absurd (he hpc) (by simp)
        · exact ⟨rfl, by dsimp only; omega, h0⟩
  | main =>
    cases pc with
    | entry =>
      simp only [step, main, Option.some.injEq] at hs
      subst hs
      have hth : th = .absent := he rfl
      subst hth
      simp only at ht
      by_cases h0 : h = 0
      · refine ⟨by simp, ?_, hp, hv⟩
        simp only [h0, ne_eq, not_true_eq_false, ite_false]
        exact ⟨ht.1, Or.inr trivial⟩
      · refine ⟨by simp, ?_, hp, hv⟩
        simp only [ne_eq, h0, not_false_eq_true, ite_true]
        exact ⟨Nat.zero_le _, by simp [ht.1], trivial⟩
    | test t =>
      simp only [step, main] at hs
      split at hs <;> (simp only [Option.some.injEq] at hs; subst hs)
      · refine ⟨by simp, ?_, hp, hv⟩
        cases th with
        | absent => exact ⟨ht.1, Or.inr (by simpa using ht.2)⟩
        | loop j => exact ht
        | returned c => exact ht
      · refine ⟨by simp, ?_, hp, hv⟩
        cases th with
        | absent => exact ⟨ht.1, Or.inr (by simpa using ht.2)⟩
        | loop j => exact ht
        | returned c => exact ht
    | loop i =>
      simp only [step, main] at hs
      simp only [MainInv] at hm
      obtain ⟨h0, hi, ha⟩ := hm
      split at hs <;> (simp only [Option.some.injEq] at hs; subst hs)
      · have hw : wrapInt (a + 1) = a + 1 :=
          wrapInt_id _ (by omega) (by unfold INT_MAX at *; omega)
        refine ⟨by simp, ?_, hp, ?_⟩
        · cases th with
          | absent => exact ⟨ht.1, Or.inr (by simpa using ht.2)⟩
          | loop j => exact ht
          | returned c => exact ht
        · intro v hvm
          have := hv v hvm
          simp only [hw]
          exact ⟨this.1, by omega⟩
      · refine ⟨by simp, ?_, hp, hv⟩
        cases th with
        | absent => exact ⟨ht.1, Or.inr (by simpa using ht.2)⟩
        | loop j => exact ht
        | returned c => exact ht
    | returned c => simp [step, main] at hs

theorem inv_init (N h : Nat) : Inv N h init := by
  refine ⟨rfl, ?_, ?_, ?_, ?_⟩
  · intro _; rfl
  · exact ⟨rfl, Or.inl rfl⟩
  · exact List.Pairwise.nil
  · intro v hv; simp [init] at hv

theorem inv_step (N h : Nat) (hN : (N : Int) ≤ INT_MAX) (who : Actor) (s s' : State)
    (hinv : Inv N h s) (hs : step N h who s = some s') : Inv N h s' :=
  ⟨mainInv_step N h 0 (by omega) (by simpa using hN) who s s' hinv.1 hs,
    obsInv_step N h hN who s s' hinv.1 hinv.2 hs⟩

theorem inv_reachable (N h : Nat) (hN : (N : Int) ≤ INT_MAX) (sched : List Actor) (s : State)
    (hr : run N h sched init = some s) : Inv N h s :=
  run_invariant N h (Inv N h) (inv_step N h hN) sched init s (inv_init N h) hr

theorem threadSteps_step (N h : Nat) (who : Actor) (s s' : State)
    (hinv : Inv N h s) (hs : step N h who s = some s') :
    threadSteps N s'.thread = threadSteps N s.thread + (if who = Actor.thread then 1 else 0) := by
  obtain ⟨a, pc, th, out⟩ := s
  obtain ⟨_, he, ht, _, _⟩ := hinv
  cases who with
  | thread =>
    cases th with
    | absent => simp [step, ThreadFunc] at hs
    | returned c => simp [step, ThreadFunc] at hs
    | loop j =>
      simp only [step, ThreadFunc] at hs
      simp only at ht
      split at hs <;> (simp only [Option.some.injEq] at hs; subst hs; simp only [threadSteps])
      · simp
      · simp only [if_true]; omega
  | main =>
    cases pc with
    | entry =>
      simp only [step, main, Option.some.injEq] at hs
      subst hs
      have hth : th = .absent := he rfl
      subst hth
      by_cases h0 : h = 0 <;> simp [threadSteps, h0]
    | test t =>
      simp only [step, main] at hs
      split at hs <;> (simp only [Option.some.injEq] at hs; subst hs; simp)
    | loop i =>
      simp only [step, main] at hs
      split at hs <;> (simp only [Option.some.injEq] at hs; subst hs; simp)
    | returned c => simp [step, main] at hs

theorem threadSteps_run (N h : Nat) (hN : (N : Int) ≤ INT_MAX) :
    ∀ (sched : List Actor) (s s' : State), Inv N h s → run N h sched s = some s' →
      threadSteps N s'.thread = threadSteps N s.thread + sched.count Actor.thread := by
  intro sched
  induction sched with
  | nil =>
    intro s s' _ hr
    simp only [run, Option.some.injEq] at hr
    subst hr
    simp
  | cons who rest ih =>
    intro s s' hinv hr
    simp only [run] at hr
    cases hs : step N h who s with
    | none => simp [hs] at hr
    | some s1 =>
      rw [hs] at hr
      rw [ih s1 s' (inv_step N h hN who s s1 hinv hs) hr,
        threadSteps_step N h who s s1 hinv hs]
      cases who with
      | main => simp
      | thread => simp; omega

theorem run_main_loop (N h k : Nat) : ∀ (s : State) (i : Nat), s.mainPc = .loop i →
    i + k ≤ N → -2147483648 ≤ s.a → s.a + k ≤ INT_MAX →
    run N h (List.replicate k .main) s
      = some { s with a := s.a + k, mainPc := .loop (i + k) } := by
  induction k with
  | zero =>
    intro s i hpc _ _ _
    obtain ⟨a, pc, th, out⟩ := s
    simp only at hpc
    subst hpc
    simp [run]
  | succ k ih =>
    intro s i hpc hik hlo hhi
    obtain ⟨a, pc, th, out⟩ := s
    simp only at hpc hlo hhi
    subst hpc
    have hi : i < N := by omega
    have hw : wrapInt (a + 1) = a + 1 :=
      wrapInt_id _ (by omega) (by push_cast at hhi; omega)
    simp only [List.replicate_succ, run, step, main, hi, if_true, hw, Option.some_bind]
    rw [ih _ (i + 1) rfl (by omega) (by dsimp only; omega) (by dsimp only; push_cast at hhi; omega)]
    simp only [Option.some.injEq, State.mk.injEq, MainPc.loop.injEq, and_true, true_and]
    constructor
    · push_cast; ring
    · omega

theorem run_thread_loop (N h k : Nat) : ∀ (s : State) (j : Nat), s.thread = .loop j →
    j + k ≤ N →
    run N h (List.replicate k .thread) s
      = some { s with out := s.out ++ List.replicate k s.a, thread := .loop (j + k) } := by
  induction k with
  | zero =>
    intro s j hpc _
    obtain ⟨a, pc, th, out⟩ := s
    simp only at hpc
    subst hpc
    simp [run]
  | succ k ih =>
    intro s j hpc hjk
    obtain ⟨a, pc, th, out⟩ := s
    simp only at hpc
    subst hpc
    have hj : j < N := by omega
    simp only [List.replicate_succ, run, step, ThreadFunc, hj, if_true, Option.some_bind]
    rw [ih _ (j + 1) rfl (by omega)]
    simp only [Option.some.injEq, State.mk.injEq, ThreadPc.loop.injEq, true_and,
      List.append_assoc, List.singleton_append, and_true]
    omega

theorem run_phases_from (N h k1 k2 : Nat) (h0 : h ≠ 0) (s0 : State)
    (hpc : s0.mainPc = .entry) (hlo : -2147483648 ≤ s0.a) (hhi : s0.a + N ≤ INT_MAX)
    (hk : k1 + k2 ≤ N) :
    run N h (phases N k1 k2) s0
      = some { a := s0.a + N, mainPc := .loop N, thread := .loop (k1 + k2),
               out := s0.out ++ (List.replicate k1 s0.a ++ List.replicate k2 (s0.a + N)) } := by
  obtain ⟨a, pc, th, out⟩ := s0
  simp only at hpc hlo hhi
  subst hpc
  unfold phases
  simp only [run, step, main, ne_eq, h0, not_false_eq_true, if_true, Option.some_bind]
  rw [run_append, run_thread_loop N h k1 _ 0 rfl (by omega)]
  simp only [Option.some_bind, Nat.zero_add]
  rw [run_append, List.replicate_succ]
  simp only [run, step, main, ne_eq, h0, not_false_eq_true, if_true, Option.some_bind]
  rw [run_main_loop N h N _ 0 rfl (by omega) (by dsimp only; omega) (by dsimp only; omega)]
  simp only [Option.some_bind, Nat.zero_add]
  rw [run_thread_loop N h k2 _ k1 rfl hk]
  simp

theorem run_phases (N h k1 k2 : Nat) (h0 : h ≠ 0) (hN : (N : Int) ≤ INT_MAX)
    (hk : k1 + k2 ≤ N) :
    run N h (phases N k1 k2) init
      = some { a := N, mainPc := .loop N, thread := .loop (k1 + k2),
               out := List.replicate k1 0 ++ List.replicate k2 (N : Int) } := by
  rw [run_phases_from N h k1 k2 h0 init rfl (by simp [init]) (by simpa [init] using hN) hk]
  simp [init]

/-- The phased schedule followed by `main`'s last step, the failing loop test
and the return. -/
theorem run_phases_exit (N h k1 k2 : Nat) (h0 : h ≠ 0) (hN : (N : Int) ≤ INT_MAX)
    (hk : k1 + k2 ≤ N) :
    run N h (phases N k1 k2 ++ [Actor.main]) init
      = some { a := N, mainPc := .returned 0, thread := .loop (k1 + k2),
               out := List.replicate k1 0 ++ List.replicate k2 (N : Int) } := by
  rw [run_append, run_phases N h k1 k2 h0 hN hk]
  simp [run, step, main]

/-- The phased schedule with all `N` reads, followed by the observer's last
step, the failing loop test and `return 0`. -/
theorem run_phases_done (N h k1 k2 : Nat) (h0 : h ≠ 0) (hN : (N : Int) ≤ INT_MAX)
    (hk : k1 + k2 = N) :
    run N h (phases N k1 k2 ++ [Actor.thread]) init
      = some { a := N, mainPc := .loop N, thread := .returned 0,
               out := List.replicate k1 0 ++ List.replicate k2 (N : Int) } := by
  rw [run_append, run_phases N h k1 k2 h0 hN (by omega)]
  simp [run, step, ThreadFunc, hk]

theorem main_terminates_aux (N h : Nat) (f : Nat) : ∀ s : State, mainFuel N h s.mainPc ≤ f →
    ∃ k s', k ≤ f ∧ run N h (List.replicate k .main) s = some s' ∧
      ∃ c, s'.mainPc = .returned c := by
  induction f with
  | zero =>
    intro s hf
    obtain ⟨a, pc, th, out⟩ := s
    cases pc with
    | entry => simp only [mainFuel] at hf; split at hf <;> omega
    | test t => simp only [mainFuel] at hf; split at hf <;> omega
    | loop i => simp [mainFuel] at hf
    | returned c => exact ⟨0, _, le_refl _, rfl, c, rfl⟩
  | succ f ih =>
    intro s hf
    obtain ⟨a, pc, th, out⟩ := s
    have key : ∀ s1 : State, main N h ⟨a, pc, th, out⟩ = some s1 → mainFuel N h s1.mainPc ≤ f →
        ∃ k s', k ≤ f + 1 ∧ run N h (List.replicate k .main) ⟨a, pc, th, out⟩ = some s' ∧
          ∃ c, s'.mainPc = .returned c := by
      intro s1 hs1 hf1
      obtain ⟨k, s', hk, hr, hc⟩ := ih s1 hf1
      refine ⟨k + 1, s', by omega, ?_, hc⟩
      simp only [List.replicate_succ, run, step, hs1, Option.some_bind]
      exact hr
    cases pc with
    | entry =>
      refine key _ rfl ?_
      simp only [mainFuel] at hf ⊢
      split at hf <;> split <;> omega
    | test t =>
      simp only [mainFuel] at hf
      by_cases ht : t = 0
      · refine key ⟨a, .returned 0, th, out⟩ (by simp [main, ht]) (by simp [mainFuel])
      · refine key ⟨a, .loop 0, th, out⟩ (by simp [main, ht]) ?_
        simp only [mainFuel, ht, if_false] at hf ⊢
        omega
    | loop i =>
      simp only [mainFuel] at hf
      by_cases hi : i < N
      · refine key ⟨wrapInt (a + 1), .loop (i + 1), th, out⟩ (by simp [main, hi]) ?_
        simp only [mainFuel]
        omega
      · refine key ⟨a, .returned 0, th, out⟩ (by simp [main, hi]) (by simp [mainFuel])
    | returned c => exact ⟨0, _, Nat.zero_le _, rfl, c, rfl⟩

/-- From any state, `main` alone returns within `mainFuel` steps. -/
theorem main_terminates (N h : Nat) (s : State) :
    ∃ k s', k ≤ mainFuel N h s.mainPc ∧ run N h (List.replicate k .main) s = some s' ∧
      ∃ c, s'.mainPc = .returned c :=
  main_terminates_aux N h _ s (le_refl _)

/-- From any state in which the observer is in its loop, the observer alone
finishes in exactly `N - j + 1` steps: the remaining reads and the return. -/
theorem thread_returns (N h : Nat) (s : State) (j : Nat) (hj : s.thread = .loop j)
    (hjN : j ≤ N) :
    run N h (List.replicate (N - j + 1) .thread) s
      = some { s with out := s.out ++ List.replicate (N - j) s.a, thread := .returned 0 } := by
  rw [show N - j + 1 = (N - j) + 1 from rfl, List.replicate_succ', run_append,
    run_thread_loop N h (N - j) s j hj (by omega)]
  have : j + (N - j) = N := by omega
  simp [run, step, ThreadFunc, this]

theorem run_extend (N h : Nat) (xs ys : List Actor) (s s' s'' : State)
    (h1 : run N h xs s = some s') (h2 : run N h ys s' = some s'') :
    run N h (xs ++ ys) s = some s'' := by
  rw [run_append, h1]; exact h2

theorem mainInv_loopEnded (N h : Nat) (h0 : h ≠ 0) (s : State) (hinv : MainInv N h 0 s)
    (he : mainLoopEnded N s = true) : s.a = N := by
  obtain ⟨a, pc, th, out⟩ := s
  cases pc with
  | entry => simp [mainLoopEnded] at he
  | test t => simp [mainLoopEnded] at he
  | loop i =>
    simp only [mainLoopEnded, decide_eq_true_eq] at he
    simp only [MainInv] at hinv
    obtain ⟨_, hi, ha⟩ := hinv
    have : i = N := by omega
    subst this
    simpa using ha
  | returned c =>
    simp only [MainInv] at hinv
    rcases hinv.2 with ⟨hz, _⟩ | ⟨_, ha⟩
    · exact absurd hz h0
    · simpa using ha

theorem loop_count_le : ((LOOP_COUNT : Nat) : Int) ≤ INT_MAX := by decide

theorem two_blocks_length (k1 k2 : Nat) (u v : Int) :
    (List.replicate k1 u ++ List.replicate k2 v).length = k1 + k2 := by
  simp

theorem two_blocks_left (k1 k2 : Nat) (u v : Int) (i : Nat) (hi : i < k1) :
    (List.replicate k1 u ++ List.replicate k2 v)[i]? = some u := by
  rw [List.getElem?_append_left (by simpa using hi)]
  simp [List.getElem?_replicate, hi]

theorem two_blocks_right (k1 k2 : Nat) (u v : Int) (i : Nat) (h1 : k1 ≤ i)
    (h2 : i < k1 + k2) :
    (List.replicate k1 u ++ List.replicate k2 v)[i]? = some v := by
  rw [List.getElem?_append_right (by simpa using h1)]
  simp only [List.length_replicate, List.getElem?_replicate]
  rw [if_pos (by omega)]

theorem obsInv_length_le (N h : Nat) (s : State) (hinv : ObsInv N h s) :
    s.out.length ≤ N := by
  obtain ⟨a, pc, th, out⟩ := s
  obtain ⟨_, ht, _, _⟩ := hinv
  cases th with
  | absent => simp only at ht; simp [ht.1]
  | loop j => simp only at ht; dsimp only; omega
  | returned r => simp only at ht; dsimp only; omega

/-! ## The claims -/

/-- C1: when `CreateThread` returns a non-null handle, then under every
interleaving of `main`'s steps with the observer's reads, the counter `a` is
exactly 1000 once `main`'s loop has ended; and the loop does end: from every
reachable state, at most 1003 further steps of `main` take it past the loop
and to its return, with `a = 1000`. -/
theorem main_final_counter (h : Nat) (h0 : h ≠ 0) (sched : List Actor) (s : State)
    (hr : run LOOP_COUNT h sched init = some s) :
    (mainLoopEnded LOOP_COUNT s = true → s.a = 1000) ∧
    ∃ k s', k ≤ 1003 ∧ run LOOP_COUNT h (List.replicate k Actor.main) s = some s' ∧
      mainLoopEnded LOOP_COUNT s' = true ∧ s'.a = 1000 := by
  have hinv := inv_reachable LOOP_COUNT h loop_count_le sched s hr
  refine ⟨fun he => mainInv_loopEnded LOOP_COUNT h h0 s hinv.1 he, ?_⟩
  obtain ⟨k, s', hk, hrun, c, hc⟩ := main_terminates LOOP_COUNT h s
  have hend : mainLoopEnded LOOP_COUNT s' = true := by simp [mainLoopEnded, hc]
  have hinv' := inv_reachable LOOP_COUNT h loop_count_le _ s'
    (run_extend _ _ _ _ _ _ _ hr hrun)
  refine ⟨k, s', ?_, hrun, hend, mainInv_loopEnded LOOP_COUNT h h0 s' hinv'.1 hend⟩
  refine le_trans hk ?_
  obtain ⟨a, pc, th, out⟩ := s
  cases pc with
  | entry => simp only [mainFuel, LOOP_COUNT]; split <;> omega
  | test t => simp only [mainFuel, LOOP_COUNT]; split <;> omega
  | loop i => simp only [mainFuel, LOOP_COUNT]; omega
  | returned c => simp [mainFuel]

/-- Witness for C1: the observer reads 400 times while `main` is between
`CreateThread` and its loop, `main` then runs its loop and returns; in the
state reached `main` is past its loop and `a = 1000`. -/
theorem main_final_counter_witness :
    (1 : Nat) ≠ 0 ∧
    run LOOP_COUNT 1 (phases LOOP_COUNT 400 0 ++ [Actor.main]) init
      = some { a := 1000, mainPc := .returned 0, thread := .loop 400,
               out := List.replicate 400 0 ++ List.replicate 0 1000 } ∧
    ({ a := 1000, mainPc := .returned 0, thread := .loop 400,
       out := List.replicate 400 0 ++ List.replicate 0 1000 } : State).a = 1000 :=
  ⟨by decide,
   run_phases_exit LOOP_COUNT 1 400 0 (by decide) loop_count_le (by decide),
   (main_final_counter 1 (by decide) (phases LOOP_COUNT 400 0 ++ [Actor.main])
      { a := 1000, mainPc := .returned 0, thread := .loop 400,
        out := List.replicate 400 0 ++ List.replicate 0 1000 }
      (run_phases_exit LOOP_COUNT 1 400 0 (by decide) loop_count_le (by decide))).1 rfl⟩

/-- C2, counterexample: `main` does not wait for the observer.  After
`CreateThread` succeeds, `main` can run its whole loop and return while
`ThreadFunc` has not performed a single read: a reachable state in which
`main` has returned and the observer has completed 0 of its 1000 reads. -/
theorem main_returns_before_observer :
    ∃ s, Reachable LOOP_COUNT 1 s ∧ s.mainPc = .returned 0 ∧ s.thread = .loop 0 ∧
      s.out.length = 0 ∧ s.out.length ≠ 1000 :=
  ⟨_, ⟨phases LOOP_COUNT 0 0 ++ [Actor.main],
      run_phases_exit LOOP_COUNT 1 0 0 (by decide) loop_count_le (by decide)⟩,
    rfl, rfl, rfl, by decide⟩

/-- C2, amended: thread.c contains no wait on the thread handle.  In every
reachable state in which `main` has returned after a successful
`CreateThread`, `main` has finished its 1000 increments (`a = 1000`) and the
observer has completed at most 1000 reads; and every number of completed reads
from 0 to 1000 does occur at `main`'s return in some interleaving. -/
theorem main_returns_without_join (h : Nat) (h0 : h ≠ 0) (s : State)
    (hr : Reachable LOOP_COUNT h s) (c : Int) (hc : s.mainPc = .returned c) :
    s.a = 1000 ∧ s.out.length ≤ 1000 ∧
    ∀ k, k ≤ 1000 → ∃ s', Reachable LOOP_COUNT h s' ∧
      s'.mainPc = .returned 0 ∧ s'.thread = .loop k ∧ s'.out.length = k := by
  obtain ⟨sched, hr⟩ := hr
  have hinv := inv_reachable LOOP_COUNT h loop_count_le sched s hr
  refine ⟨mainInv_loopEnded LOOP_COUNT h h0 s hinv.1 (by simp [mainLoopEnded, hc]),
    obsInv_length_le LOOP_COUNT h s hinv.2, ?_⟩
  intro k hk
  exact ⟨_, ⟨phases LOOP_COUNT k 0 ++ [Actor.main],
    run_phases_exit LOOP_COUNT h k 0 h0 loop_count_le (by simpa [LOOP_COUNT] using hk)⟩,
    rfl, rfl, by simp⟩

/-- Witness for C2 (amended): the state in which `main` returned after the
observer's 400th read. -/
theorem main_returns_without_join_witness :
    (1 : Nat) ≠ 0 ∧
    Reachable LOOP_COUNT 1
      { a := 1000, mainPc := .returned 0, thread := .loop 400,
        out := List.replicate 400 0 ++ List.replicate 0 1000 } ∧
    (List.replicate 400 (0 : Int) ++ List.replicate 0 1000).length ≤ 1000 :=
  ⟨by decide,
   ⟨phases LOOP_COUNT 400 0 ++ [Actor.main],
     run_phases_exit LOOP_COUNT 1 400 0 (by decide) loop_count_le (by decide)⟩,
   (main_returns_without_join 1 (by decide)
      { a := 1000, mainPc := .returned 0, thread := .loop 400,
        out := List.replicate 400 0 ++ List.replicate 0 1000 }
      ⟨phases LOOP_COUNT 400 0 ++ [Actor.main],
        run_phases_exit LOOP_COUNT 1 400 0 (by decide) loop_count_le (by decide)⟩
      0 rfl).2.1⟩

/-- C3: when `CreateThread` returns `NULL`, `main` never reaches `a++`: in
every reachable state `a` is 0 and `main` is not inside its loop, no step
changes `a`, and `main` returns within two steps with `a` still 0. -/
theorem spawn_failure_counter_untouched (sched : List Actor) (s : State)
    (hr : run LOOP_COUNT 0 sched init = some s) :
    s.a = 0 ∧ (∀ i, s.mainPc ≠ .loop i) ∧
    (∀ who s', step LOOP_COUNT 0 who s = some s' → s'.a = s.a) ∧
    ∃ k s', k ≤ 2 ∧ run LOOP_COUNT 0 (List.replicate k Actor.main) s = some s' ∧
      s'.mainPc = .returned 0 ∧ s'.a = 0 := by
  have hcov : ∀ sched s, run LOOP_COUNT 0 sched init = some s →
      s.a = 0 ∧ (∀ i, s.mainPc ≠ .loop i) ∧ (∀ t, s.mainPc = .test t → t = 0) ∧
      (∀ c, s.mainPc = .returned c → c = 0) := by
    intro sched s hr
    have hinv := (inv_reachable LOOP_COUNT 0 loop_count_le sched s hr).1
    obtain ⟨a, pc, th, out⟩ := s
    cases pc with
    | entry => simp only [MainInv] at hinv; simp [hinv]
    | test t => simp only [MainInv] at hinv; simp [hinv.1, hinv.2]
    | loop i => simp only [MainInv] at hinv; exact absurd rfl hinv.1
    | returned c =>
      simp only [MainInv] at hinv
      rcases hinv.2 with ⟨_, ha⟩ | ⟨hz, _⟩
      · have ha' : a = 0 := by simpa using ha
        simp [ha', hinv.1]
      · exact absurd rfl hz
  obtain ⟨ha, hl, ht, hc⟩ := hcov sched s hr
  refine ⟨ha, hl, ?_, ?_⟩
  · intro who s' hs
    have := (hcov (sched ++ [who]) s'
      (run_extend _ _ _ _ _ _ _ hr (by simp [run, hs]))).1
    rw [this, ha]
  · obtain ⟨k, s', hk, hrun, c, hc'⟩ := main_terminates LOOP_COUNT 0 s
    obtain ⟨ha', _, _, hc0⟩ := hcov _ s' (run_extend _ _ _ _ _ _ _ hr hrun)
    refine ⟨k, s', le_trans hk ?_, hrun, ?_, ha'⟩
    · obtain ⟨a, pc, th, out⟩ := s
      cases pc with
      | entry => simp [mainFuel]
      | test t => simp [mainFuel, ht t rfl]
      | loop i => exact absurd rfl (hl i)
      | returned c => simp [mainFuel]
    · rw [hc', hc0 c hc']

/-- Witness for C3: with a `NULL` handle, `main`'s two steps lead to its
return, and `a` is 0 there. -/
theorem spawn_failure_counter_untouched_witness :
    run LOOP_COUNT 0 [Actor.main, Actor.main] init
      = some { a := 0, mainPc := .returned 0, thread := .absent, out := [] } ∧
    ({ a := 0, mainPc := .returned 0, thread := .absent, out := [] } : State).a = 0 :=
  ⟨by decide,
   (spawn_failure_counter_untouched [Actor.main, Actor.main]
      { a := 0, mainPc := .returned 0, thread := .absent, out := [] } (by decide)).1⟩

/-- C4, counterexample: the exit value of `main` after `CreateThread` returned
`NULL` equals its exit value after a run in which the thread was created and
the loop completed: both are 0. -/
theorem spawn_failure_same_exit_code :
    ∃ sf sok, run LOOP_COUNT 0 [Actor.main, Actor.main] init = some sf ∧
      run LOOP_COUNT 1 (phases LOOP_COUNT 0 0 ++ [Actor.main]) init = some sok ∧
      exitCode sf = some 0 ∧ exitCode sok = some 0 ∧ exitCode sf = exitCode sok :=
  ⟨{ a := 0, mainPc := .returned 0, thread := .absent, out := [] }, _, by decide,
    run_phases_exit LOOP_COUNT 1 0 0 (by decide) loop_count_le (by decide), rfl, rfl, rfl⟩

/-- C4, amended: `main` reports no error.  Whatever handle `CreateThread`
returns, the exit value of `main` is 0; and when the handle is `NULL`, `main`
returns within two steps, with exit value 0 and with nothing printed. -/
theorem main_exit_code_zero (h : Nat) (sched : List Actor) (s : State)
    (hr : run LOOP_COUNT h sched init = some s) :
    (∀ c, exitCode s = some c → c = 0) ∧
    (h = 0 → s.out = [] ∧
      ∃ k s', k ≤ 2 ∧ run LOOP_COUNT h (List.replicate k Actor.main) s = some s' ∧
        exitCode s' = some 0 ∧ s'.out = []) := by
  have hcode : ∀ sched s, run LOOP_COUNT h sched init = some s →
      (∀ c, exitCode s = some c → c = 0) ∧ (h = 0 → s.out = []) := by
    intro sched s hr
    have hinv := inv_reachable LOOP_COUNT h loop_count_le sched s hr
    obtain ⟨a, pc, th, out⟩ := s
    constructor
    · intro c hc
      cases pc with
      | entry => simp [exitCode] at hc
      | test t => simp [exitCode] at hc
      | loop i => simp [exitCode] at hc
      | returned c' =>
        simp only [exitCode, Option.some.injEq] at hc
        have := hinv.1
        simp only [MainInv] at this
        rw [← hc]; exact this.1
    · intro hz
      obtain ⟨_, _, ht, _, _⟩ := hinv
      cases th with
      | absent => exact ht.1
      | loop j => exact absurd hz ht.2.2
      | returned r => exact absurd hz ht.2.2
  refine ⟨(hcode sched s hr).1, fun hz => ⟨(hcode sched s hr).2 hz, ?_⟩⟩
  obtain ⟨k, s', hk, hrun, c, hc⟩ := main_terminates LOOP_COUNT h s
  have hr' := run_extend _ _ _ _ _ _ _ hr hrun
  have hex : exitCode s' = some c := by simp [exitCode, hc]
  refine ⟨k, s', le_trans hk ?_, hrun, ?_, (hcode _ s' hr').2 hz⟩
  · have hinv := (inv_reachable LOOP_COUNT h loop_count_le sched s hr).1
    obtain ⟨a, pc, th, out⟩ := s
    cases pc with
    | entry => simp [mainFuel, hz]
    | test t =>
      simp only [MainInv] at hinv
      simp [mainFuel, hinv.1, hz]
    | loop i => simp only [MainInv] at hinv; exact absurd hz hinv.1
    | returned c => simp [mainFuel]
  · rw [hex, (hcode _ s' hr').1 c hex]

/-- Witness for C4 (amended): the run with a `NULL` handle, at `main`'s
return; the exit value is 0. -/
theorem main_exit_code_zero_witness :
    run LOOP_COUNT 0 [Actor.main, Actor.main] init
      = some { a := 0, mainPc := .returned 0, thread := .absent, out := [] } ∧
    (0 : Int) = 0 :=
  ⟨by decide,
   (main_exit_code_zero 0 [Actor.main, Actor.main]
      { a := 0, mainPc := .returned 0, thread := .absent, out := [] } (by decide)).1 0 rfl⟩

/-- C5, counterexample: two consecutive successful runs of `main`'s body, the
second entered in the state the first left behind.  The first ends with
`a = 1000`, the second with `a = 2000`, not 1000. -/
theorem second_run_counter_not_1000 :
    ∃ s1 s2, run LOOP_COUNT 1 (phases LOOP_COUNT 0 0 ++ [Actor.main]) init = some s1 ∧
      run LOOP_COUNT 1 (phases LOOP_COUNT 0 0 ++ [Actor.main]) (reenter s1) = some s2 ∧
      s1.mainPc = .returned 0 ∧ s2.mainPc = .returned 0 ∧
      s1.a = 1000 ∧ s2.a = 2000 ∧ s2.a ≠ 1000 := by
  refine ⟨_, { a := 2000, mainPc := .returned 0, thread := .loop 0, out := [] },
    run_phases_exit LOOP_COUNT 1 0 0 (by decide) loop_count_le (by decide), ?_,
    rfl, rfl, rfl, rfl, by decide⟩
  rw [run_append, run_phases_from LOOP_COUNT 1 0 0 (by decide) _ rfl (by decide) (by decide)
    (by decide)]
  simp [run, step, main, reenter, LOOP_COUNT]

/-- C5, amended: `a` is set to 0 once, by its initialiser, and `main` never
resets it.  Of two consecutive successful runs of `main`'s body, the second
entered in the state the first left behind, the first ends with `a = 1000` and
the second with `a = 2000`: each run adds exactly 1000 to the counter. -/
theorem second_run_adds_1000 (h1 h2 : Nat) (hh1 : h1 ≠ 0) (hh2 : h2 ≠ 0)
    (sched1 : List Actor) (s1 : State) (hr1 : run LOOP_COUNT h1 sched1 init = some s1)
    (c1 : Int) (hc1 : s1.mainPc = .returned c1)
    (sched2 : List Actor) (s2 : State)
    (hr2 : run LOOP_COUNT h2 sched2 (reenter s1) = some s2)
    (c2 : Int) (hc2 : s2.mainPc = .returned c2) :
    s1.a = 1000 ∧ s2.a = 2000 ∧ s2.a = s1.a + 1000 := by
  have hinv1 := inv_reachable LOOP_COUNT h1 loop_count_le sched1 s1 hr1
  have ha1 : s1.a = 1000 :=
    mainInv_loopEnded LOOP_COUNT h1 hh1 s1 hinv1.1 (by simp [mainLoopEnded, hc1])
  have hstart : MainInv LOOP_COUNT h2 1000 (reenter s1) := by
    simp only [MainInv, reenter]; exact ha1
  have hinv2 : MainInv LOOP_COUNT h2 1000 s2 :=
    run_invariant LOOP_COUNT h2 (MainInv LOOP_COUNT h2 1000)
      (fun who s s' hi hs =>
        mainInv_step LOOP_COUNT h2 1000 (by decide) (by decide) who s s' hi hs)
      sched2 (reenter s1) s2 hstart hr2
  have ha2 : s2.a = 2000 := by
    obtain ⟨a, pc, th, out⟩ := s2
    simp only at hc2
    subst hc2
    simp only [MainInv] at hinv2
    rcases hinv2.2 with ⟨hz, _⟩ | ⟨_, ha⟩
    · exact absurd hz hh2
    · simp only [LOOP_COUNT] at ha; simpa using ha
  exact ⟨ha1, ha2, by rw [ha1, ha2]; rfl⟩

/-- Witness for C5 (amended): `main` alone from start to return, twice. -/
theorem second_run_adds_1000_witness :
    run LOOP_COUNT 1 (phases LOOP_COUNT 0 0 ++ [Actor.main]) init
      = some { a := 1000, mainPc := .returned 0, thread := .loop 0, out := [] } ∧
    run LOOP_COUNT 1 (phases LOOP_COUNT 0 0 ++ [Actor.main])
        (reenter { a := 1000, mainPc := .returned 0, thread := .loop 0, out := [] })
      = some { a := 2000, mainPc := .returned 0, thread := .loop 0, out := [] } ∧
    ((1000 : Int) = 1000 ∧ (2000 : Int) = 2000 ∧ (2000 : Int) = 1000 + 1000) :=
  have hr1 := run_phases_exit LOOP_COUNT 1 0 0 (by decide) loop_count_le (by decide)
  have hr2 : run LOOP_COUNT 1 (phases LOOP_COUNT 0 0 ++ [Actor.main])
        (reenter { a := 1000, mainPc := .returned 0, thread := .loop 0, out := [] })
      = some { a := 2000, mainPc := .returned 0, thread := .loop 0, out := [] } := by
    rw [run_append, run_phases_from LOOP_COUNT 1 0 0 (by decide) _ rfl (by decide) (by decide)
      (by decide)]
    simp [run, step, main, reenter, LOOP_COUNT]
  ⟨hr1, hr2,
    second_run_adds_1000 1 1 (by decide) (by decide) _ _ hr1 0 rfl _ _ hr2 0 rfl⟩

/-- C6: `ThreadFunc` performs exactly 1000 reads and emits one value per read.
Under every interleaving, the observer has taken at most 1001 steps (1000
reads and the return), the number of emitted values is the number of its steps
capped at 1000, and it has returned exactly when it has taken all 1001.  If it
has returned, its return value is 0 and exactly 1000 values have been emitted;
if it is in its loop with counter `j`, then `j ≤ 1000`, exactly `j` values have
been emitted, and the remaining `1000 - j` reads followed by the return
complete it whatever `main` has done so far.  Each of its steps is either a
read that emits the current value of `a` and advances the counter, or, at
counter 1000, the return of 0. -/
theorem observer_reads_exactly_1000 (h : Nat) (sched : List Actor) (s : State)
    (hr : run LOOP_COUNT h sched init = some s) :
    (sched.count Actor.thread ≤ 1001 ∧
      s.out.length = min (sched.count Actor.thread) 1000 ∧
      ((∃ c, s.thread = .returned c) ↔ sched.count Actor.thread = 1001)) ∧
    (∀ c, s.thread = .returned c → c = 0 ∧ s.out.length = 1000) ∧
    (∀ j, s.thread = .loop j → j ≤ 1000 ∧ s.out.length = j ∧
      ∃ s', run LOOP_COUNT h (List.replicate (1000 - j + 1) Actor.thread) s = some s' ∧
        s'.thread = .returned 0 ∧ s'.out.length = 1000) ∧
    (∀ s', ThreadFunc LOOP_COUNT s = some s' →
      (∃ j, j < 1000 ∧ s.thread = .loop j ∧ s'.thread = .loop (j + 1) ∧
        s'.out = s.out ++ [s.a]) ∨
      (s.thread = .loop 1000 ∧ s'.thread = .returned 0 ∧ s'.out = s.out)) := by
  have hinv := inv_reachable LOOP_COUNT h loop_count_le sched s hr
  have hcount := threadSteps_run LOOP_COUNT h loop_count_le sched init s
    (inv_init LOOP_COUNT h) hr
  simp only [init, threadSteps, Nat.zero_add] at hcount
  obtain ⟨a, pc, th, out⟩ := s
  obtain ⟨_, _, ht, _, _⟩ := hinv
  cases th with
  | absent =>
    simp only [threadSteps] at hcount
    refine ⟨⟨by omega, ?_, ?_⟩, fun c hc => by simp at hc, fun j hj => by simp at hj,
      fun s' hs => ?_⟩
    · have hout : out = [] := ht.1
      simp [hout, ← hcount]
    · simp [← hcount]
    · simp [ThreadFunc] at hs
  | returned r =>
    simp only [LOOP_COUNT] at ht
    simp only [threadSteps, LOOP_COUNT] at hcount
    refine ⟨⟨by omega, ?_, ?_⟩, fun c hc => ?_, fun j hj => by simp at hj, fun s' hs => ?_⟩
    · simp only [← hcount]; exact ht.2.1
    · simp [← hcount]
    · simp only [ThreadPc.returned.injEq] at hc
      subst hc
      exact ⟨ht.1, ht.2.1⟩
    · simp [ThreadFunc] at hs
  | loop j =>
    simp only [LOOP_COUNT] at ht
    simp only [threadSteps] at hcount
    obtain ⟨hj, hl, _⟩ := ht
    refine ⟨⟨by omega, ?_, ?_⟩, fun c hc => by simp at hc, fun j' hj' => ?_, fun s' hs => ?_⟩
    · simp only [← hcount, hl]; omega
    · simp only [← hcount]
      constructor
      · rintro ⟨c, hc⟩; simp at hc
      · intro hj'; omega
    · simp only [ThreadPc.loop.injEq] at hj'
      subst hj'
      refine ⟨hj, hl, _, thread_returns LOOP_COUNT h _ j rfl hj, rfl, ?_⟩
      simp only [LOOP_COUNT, List.length_append, List.length_replicate, hl]
      omega
    · simp only [ThreadFunc, LOOP_COUNT] at hs
      split at hs <;> (simp only [Option.some.injEq] at hs; subst hs)
      · exact Or.inl ⟨j, by assumption, rfl, rfl, rfl⟩
      · have : j = 1000 := by omega
        subst this
        exact Or.inr ⟨rfl, rfl, rfl⟩

/-- Witness for C6: `main` runs its loop first, then the observer performs its
1000 reads and returns; it has returned 0 and 1000 values were emitted. -/
theorem observer_reads_exactly_1000_witness :
    run LOOP_COUNT 1 (phases LOOP_COUNT 0 1000 ++ [Actor.thread]) init
      = some { a := 1000, mainPc := .loop 1000, thread := .returned 0,
               out := List.replicate 0 0 ++ List.replicate 1000 1000 } ∧
    (0 = 0 ∧ (List.replicate 0 (0 : Int) ++ List.replicate 1000 1000).length = 1000) :=
  ⟨run_phases_done LOOP_COUNT 1 0 1000 (by decide) loop_count_le (by decide),
   (observer_reads_exactly_1000 1 (phases LOOP_COUNT 0 1000 ++ [Actor.thread])
      { a := 1000, mainPc := .loop 1000, thread := .returned 0,
        out := List.replicate 0 0 ++ List.replicate 1000 1000 }
      (run_phases_done LOOP_COUNT 1 0 1000 (by decide) loop_count_le (by decide))).2.1
        0 rfl⟩

/-- C7: under every interleaving, every value `ThreadFunc` emits lies in
`[0, N]`, where `N` is the loop bound (at most `INT_MAX`, so that `a++` cannot
overflow); for the bound 1000 of thread.c the range is `[0, 1000]`; for
`N = 1` at most one value is emitted, it is 0 or 1, and the counter is 1 once
`main`'s loop has ended. -/
theorem observed_in_range (N h : Nat) (hN : (N : Int) ≤ INT_MAX) (sched : List Actor)
    (s : State) (hr : run N h sched init = some s) :
    (∀ v ∈ s.out, 0 ≤ v ∧ v ≤ (N : Int)) ∧
    (N = LOOP_COUNT → ∀ v ∈ s.out, 0 ≤ v ∧ v ≤ 1000) ∧
    (N = 1 → (∀ v ∈ s.out, v = 0 ∨ v = 1) ∧ s.out.length ≤ 1 ∧
      (h ≠ 0 → mainLoopEnded 1 s = true → s.a = 1)) := by
  have hinv := inv_reachable N h hN sched s hr
  have hb := mainInv_bounds N h s hinv.1
  have hrange : ∀ v ∈ s.out, 0 ≤ v ∧ v ≤ (N : Int) := by
    intro v hv
    have := hinv.2.2.2.2 v hv
    exact ⟨this.1, le_trans this.2 hb.2⟩
  refine ⟨hrange, ?_, ?_⟩
  · intro hN1 v hv
    have := hrange v hv
    subst hN1
    simpa [LOOP_COUNT] using this
  · intro hN1
    subst hN1
    refine ⟨?_, obsInv_length_le 1 h s hinv.2, ?_⟩
    · intro v hv
      have := hrange v hv
      omega
    · intro h0 he
      simpa using mainInv_loopEnded 1 h h0 s hinv.1 he

/-- Witness for C7: loop bound 1, observer reads before `main` increments. -/
theorem observed_in_range_witness :
    ((1 : Nat) : Int) ≤ INT_MAX ∧
    run 1 1 [Actor.main, Actor.thread, Actor.main, Actor.main] init
      = some { a := 1, mainPc := .loop 1, thread := .loop 1, out := [0] } ∧
    (∀ v ∈ [(0 : Int)], v = 0 ∨ v = 1) :=
  ⟨by decide, by decide,
   ((observed_in_range 1 1 (by decide) [Actor.main, Actor.thread, Actor.main, Actor.main]
      { a := 1, mainPc := .loop 1, thread := .loop 1, out := [0] } (by decide)).2.2 rfl).1⟩

/-- C8: what the observer sees depends on the schedule.  Two interleavings of
`main`'s 1000 increments with `ThreadFunc`'s 1000 reads give different
outputs.  In the first the observer's first read already returns the final
value 1000, and its first two reads return the same value; in the second the
first two reads return 0 and 1000, skipping every value in between. -/
theorem observed_depends_on_schedule :
    ∃ sA sB, run LOOP_COUNT 1 (phases LOOP_COUNT 0 1000) init = some sA ∧
      run LOOP_COUNT 1 (phases LOOP_COUNT 1 999) init = some sB ∧
      (sA.a = 1000 ∧ sA.mainPc = .loop 1000 ∧ sA.thread = .loop 1000 ∧
        sA.out.length = 1000) ∧
      (sB.a = 1000 ∧ sB.mainPc = .loop 1000 ∧ sB.thread = .loop 1000 ∧
        sB.out.length = 1000) ∧
      sA.out ≠ sB.out ∧
      sA.out[0]? = some 1000 ∧
      (∃ k v, sA.out[k]? = some v ∧ sA.out[k + 1]? = some v) ∧
      (∃ k v w, sB.out[k]? = some v ∧ sB.out[k + 1]? = some w ∧ v + 1 < w) := by
  have hA0 : (List.replicate 0 (0 : Int) ++ List.replicate 1000 ((LOOP_COUNT : Nat) : Int))[0]?
      = some 1000 := two_blocks_right 0 1000 0 _ 0 (by decide) (by decide)
  have hA1 : (List.replicate 0 (0 : Int) ++ List.replicate 1000 ((LOOP_COUNT : Nat) : Int))[1]?
      = some 1000 := two_blocks_right 0 1000 0 _ 1 (by decide) (by decide)
  have hB0 : (List.replicate 1 (0 : Int) ++ List.replicate 999 ((LOOP_COUNT : Nat) : Int))[0]?
      = some 0 := two_blocks_left 1 999 0 _ 0 (by decide)
  have hB1 : (List.replicate 1 (0 : Int) ++ List.replicate 999 ((LOOP_COUNT : Nat) : Int))[1]?
      = some 1000 := two_blocks_right 1 999 0 _ 1 (by decide) (by decide)
  refine ⟨_, _, run_phases LOOP_COUNT 1 0 1000 (by decide) loop_count_le (by decide),
    run_phases LOOP_COUNT 1 1 999 (by decide) loop_count_le (by decide),
    ⟨rfl, rfl, rfl, two_blocks_length 0 1000 _ _⟩,
    ⟨rfl, rfl, rfl, two_blocks_length 1 999 _ _⟩, ?_, hA0, ⟨0, 1000, hA0, hA1⟩,
    ⟨0, 0, 1000, hB0, hB1, by decide⟩⟩
  intro heq
  have h0 := congrArg (fun l : List Int => l[0]?) heq
  simp only at h0
  rw [hA0, hB0] at h0
  exact absurd h0 (by decide)

/-- C9: in every reachable state `0 ≤ a ≤ 1000`; whenever `main` is about to
execute `a++`, `a ≤ 999`, so `a + 1` fits a signed `int`, and the step stores
exactly `a + 1`; every other step of `main` and every step of `ThreadFunc`
leaves `a` unchanged; so no step ever decreases `a`. -/
theorem counter_bounded_monotone (h : Nat) (s : State) (hr : Reachable LOOP_COUNT h s) :
    (0 ≤ s.a ∧ s.a ≤ 1000) ∧
    (atIncrement LOOP_COUNT s = true →
      s.a ≤ 999 ∧ s.a + 1 ≤ INT_MAX ∧
      ∃ s', main LOOP_COUNT h s = some s' ∧ s'.a = s.a + 1) ∧
    (∀ s', main LOOP_COUNT h s = some s' →
      s'.a = if atIncrement LOOP_COUNT s = true then s.a + 1 else s.a) ∧
    (∀ s', ThreadFunc LOOP_COUNT s = some s' → s'.a = s.a) ∧
    (∀ who s', step LOOP_COUNT h who s = some s' → s.a ≤ s'.a) := by
  obtain ⟨sched, hr⟩ := hr
  have hinv := inv_reachable LOOP_COUNT h loop_count_le sched s hr
  have hb := mainInv_bounds LOOP_COUNT h s hinv.1
  have hmain : ∀ s', main LOOP_COUNT h s = some s' →
      s'.a = if atIncrement LOOP_COUNT s = true then s.a + 1 else s.a := by
    intro s' hs
    have hm := hinv.1
    obtain ⟨a, pc, th, out⟩ := s
    cases pc with
    | entry => simp only [main, Option.some.injEq] at hs; subst hs; simp [atIncrement]
    | test t =>
      simp only [main] at hs
      split at hs <;> (simp only [Option.some.injEq] at hs; subst hs; simp [atIncrement])
    | loop i =>
      simp only [main] at hs
      simp only [MainInv] at hm
      split at hs <;> (simp only [Option.some.injEq] at hs; subst hs)
      · rename_i hi
        have hw : wrapInt (a + 1) = a + 1 :=
          wrapInt_id _ (by omega) (by unfold INT_MAX; simp only [LOOP_COUNT] at hi; omega)
        simp [atIncrement, hi, hw]
      · rename_i hi
        simp [atIncrement, hi]
    | returned c => simp [main] at hs
  have hthread : ∀ s', ThreadFunc LOOP_COUNT s = some s' → s'.a = s.a := by
    intro s' hs
    obtain ⟨a, pc, th, out⟩ := s
    cases th with
    | absent => simp [ThreadFunc] at hs
    | returned r => simp [ThreadFunc] at hs
    | loop j =>
      simp only [ThreadFunc] at hs
      split at hs <;> (simp only [Option.some.injEq] at hs; subst hs; rfl)
  refine ⟨by simpa [LOOP_COUNT] using hb, ?_, hmain, hthread, ?_⟩
  · intro hat
    have hm := hinv.1
    obtain ⟨a, pc, th, out⟩ := s
    cases pc with
    | entry => simp [atIncrement] at hat
    | test t => simp [atIncrement] at hat
    | returned c => simp [atIncrement] at hat
    | loop i =>
      simp only [atIncrement, decide_eq_true_eq, LOOP_COUNT] at hat
      simp only [MainInv] at hm
      have ha : a ≤ 999 := by omega
      refine ⟨ha, by unfold INT_MAX; dsimp only; omega, ?_⟩
      have hw : wrapInt (a + 1) = a + 1 :=
        wrapInt_id _ (by omega) (by unfold INT_MAX; omega)
      exact ⟨_, by simp only [main, LOOP_COUNT, hat, if_true]; rfl, hw⟩
  · intro who s' hs
    cases who with
    | main =>
      have := hmain s' hs
      split at this <;> omega
    | thread =>
      have := hthread s' hs
      omega

/-- Witness for C9: after `CreateThread` and the handle test, `main` is about
to execute its first `a++`; there `a ≤ 999` and `a + 1` fits an `int`. -/
theorem counter_bounded_monotone_witness :
    Reachable LOOP_COUNT 1 { a := 0, mainPc := .loop 0, thread := .loop 0, out := [] } ∧
    atIncrement LOOP_COUNT { a := 0, mainPc := .loop 0, thread := .loop 0, out := [] } = true ∧
    ((0 : Int) ≤ 999 ∧ (0 : Int) + 1 ≤ INT_MAX) :=
  ⟨⟨[Actor.main, Actor.main], by decide⟩, by decide,
   have hw := (counter_bounded_monotone 1
      { a := 0, mainPc := .loop 0, thread := .loop 0, out := [] }
      ⟨[Actor.main, Actor.main], by decide⟩).2.1 (by decide)
   ⟨hw.1, hw.2.1⟩⟩

/-- C10: with each read and each increment one atomic step, the sequence of
values `ThreadFunc` emits is non-decreasing under every interleaving: each
emitted value is at least the one before it, and at least every earlier one. -/
theorem observed_nondecreasing (h : Nat) (sched : List Actor) (s : State)
    (hr : run LOOP_COUNT h sched init = some s) :
    s.out.Chain' (fun x y => x ≤ y) ∧ s.out.Pairwise (fun x y => x ≤ y) := by
  have hinv := inv_reachable LOOP_COUNT h loop_count_le sched s hr
  exact ⟨List.Pairwise.chain' hinv.2.2.2.1, hinv.2.2.2.1⟩

/-- Witness for C10: the observer reads once before `main`'s loop and 999
times after it. -/
theorem observed_nondecreasing_witness :
    run LOOP_COUNT 1 (phases LOOP_COUNT 1 999) init
      = some { a := 1000, mainPc := .loop 1000, thread := .loop 1000,
               out := List.replicate 1 0 ++ List.replicate 999 1000 } ∧
    (List.replicate 1 (0 : Int) ++ List.replicate 999 1000).Pairwise (fun x y => x ≤ y) :=
  ⟨run_phases LOOP_COUNT 1 1 999 (by decide) loop_count_le (by decide),
   (observed_nondecreasing 1 (phases LOOP_COUNT 1 999)
      { a := 1000, mainPc := .loop 1000, thread := .loop 1000,
        out := List.replicate 1 0 ++ List.replicate 999 1000 }
      (run_phases LOOP_COUNT 1 1 999 (by decide) loop_count_le (by decide))).2⟩

end ThreadC
